import Mathlib

/-!
# rover: copying one entry of a remote zip archive

A shallow embedding of `main.go` (package `main` of `cj123/rover`) and the
properties of its functions `progressBar`, `getBufferSize`, `downloadFile`,
`findFile` and `listFiles`.

Conventions of the embedding.

* Go's `uint64` values are natural numbers below `2^64`; every `uint64`
  operation of the source is followed by an explicit reduction `u64`.
  Go's `int` is the 64-bit signed integer, as on every 64-bit platform;
  `int64wrap` is its wrap-around.
* The package-level variables `verbose` and `limitBytes`, set by the flag
  parser, are passed as arguments.
* A `for { ... }` loop that the source does not bound is run with a fuel
  counter; running out of fuel is the outcome `Outcome.timeout`, so that
  "the function returns" is the statement that some amount of fuel gives
  `Outcome.returned`.
* What the library calls do (`io.ReadFull`, `(*os.File).Write`,
  `fmt.Sprintf`) is written out from their documented behaviour;
  `humanize.Bytes` and the terminal width are parameters.
* `fmt.Printf` and `fmt.Println` in `downloadFile` write to `os.Stdout`,
  which is the very file `main` passes as `writer` for `-o -`: the files the
  function writes to are kept in a table `Files` and named by a `Handle`.
  Each evaluation of the percentage is also recorded in the state of the copy.
-/

namespace Rover

/-! ## Machine integers -/

/-- Reduction of a natural number to Go's `uint64`. -/
def u64 (n : Nat) : Nat := n % 2 ^ 64

/-- Wrap-around of an integer to Go's 64-bit `int`. -/
def int64wrap (x : Int) : Int := (x + 2 ^ 63) % 2 ^ 64 - 2 ^ 63

/-- The conversion `int(x)` of a `uint64` value `x`. -/
def intOfU64 (x : Nat) : Int := int64wrap (x : Int)

/-- The constant `defaultBufferSize = 128 * 1024`. -/
def defaultBufferSize : Nat := 128 * 1024

/-! ## Formatting -/

/-- Padding on the left with spaces up to `width` characters: the verb `%Ns`
and, on the decimal form of a number, `%Nd`. -/
def padLeft (width : Nat) (s : String) : String :=
  String.mk (List.replicate (width - s.length) ' ') ++ s

/-- Padding on the right with spaces up to `width` characters: the verb
`%-Ns`. -/
def padRight (width : Nat) (s : String) : String :=
  s ++ String.mk (List.replicate (width - s.length) ' ')

/-- The call `fmt.Sprintf("%3d%%", progress)`. -/
def sprintf3dPercent (progress : Int) : String :=
  padLeft 3 (toString progress) ++ "%"

/-! ## progressBar -/

/-- The loop `for i := 0; i < currentProgress; i++ { progressBar = progressBar + "=" }`,
started at the value `i` of the loop variable (`i++` cannot overflow, `i`
being below another `int`). -/
def fillLoop (currentProgress : Int) (i : Int) (bar : String) : String :=
  if i < currentProgress then fillLoop currentProgress (i + 1) (bar ++ "=")
  else bar
termination_by (currentProgress - i).toNat
decreasing_by omega

/-- The loop `for i := width; i > currentProgress; i-- { progressBar = progressBar + " " }`,
started at the value `i` of the loop variable. -/
def padLoop (currentProgress : Int) (i : Int) (bar : String) : String :=
  if i > currentProgress then padLoop currentProgress (i - 1) (bar ++ " ")
  else bar
termination_by (i - currentProgress).toNat
decreasing_by omega

/-- The function `progressBar`; `termWidth` is the value the source assigns to
`width` before the subtraction, that is `80` on Windows and the first result
of `terminal.GetSize(0)` elsewhere. -/
def progressBar (termWidth : Int) (progress : Int) : String :=
  -- take off 40 for extra info
  let width := int64wrap (termWidth - 40)
  -- get the current progress
  let currentProgress := Int.tdiv (int64wrap (progress * width)) 100
  let bar := "["
  let bar := fillLoop currentProgress 0 bar
  let bar := bar ++ ">"
  let bar := padLoop currentProgress width bar
  bar ++ "] " ++ sprintf3dPercent progress

/-! ## Errors, streams and sinks -/

/-- Go `error` values that are not `nil`; a Go `error` is an `Option Error`. -/
inductive Error where
  | EOF
  | ErrUnexpectedEOF
  | other (msg : String)
  deriving DecidableEq

/-- One byte. -/
abbrev Byte := Fin 256

/-- The decompression stream `rc` of an entry: the bytes it still has to
deliver, and the error it reports once they are used up (`Error.EOF` for a
stream that ends normally). -/
structure Stream where
  data : List Byte
  fin : Error
  deriving DecidableEq

/-- The call `io.ReadFull(rc, buf)` for a buffer of `len` bytes: the bytes put
at the front of the buffer (`n` is their number), the error, and the stream
afterwards. A buffer of length zero gives `0, nil` without reading; a full
buffer gives `nil`; an end of stream after some bytes gives
`io.ErrUnexpectedEOF`; only an end of stream before any byte gives `io.EOF`. -/
def readFull (rc : Stream) (len : Nat) : List Byte × Option Error × Stream :=
  if len = 0 then ([], none, rc)
  else if len ≤ rc.data.length then
    (rc.data.take len, none, { rc with data := rc.data.drop len })
  else if rc.data.length = 0 then ([], some rc.fin, rc)
  else (rc.data, some (if rc.fin = Error.EOF then Error.ErrUnexpectedEOF else rc.fin),
        { rc with data := [] })

/-- A file open for writing: what it holds, and how many more bytes it
accepts (`none`: no bound). -/
structure Sink where
  content : List Byte
  room : Option Nat
  deriving DecidableEq

/-- The call `Write(p)` on such a file: the file afterwards, the number of
bytes written and the error, which is not `nil` exactly when fewer than
`len(p)` bytes were written. -/
def Sink.write (w : Sink) (p : List Byte) : Sink × Nat × Option Error :=
  match w.room with
  | none => ({ w with content := w.content ++ p }, p.length, none)
  | some r =>
    if p.length ≤ r then
      ({ content := w.content ++ p, room := some (r - p.length) }, p.length, none)
    else
      ({ content := w.content ++ p.take r, room := some 0 }, r,
        some (Error.other "no space left on device"))

/-- The bytes of a Go string: the UTF-8 encoding of its characters. -/
def utf8 (s : String) : List Byte :=
  (s.data.map (fun c => (String.utf8EncodeChar c).map (fun b => (b.val : Fin 256)))).flatten

/-- A `*os.File` that `downloadFile` writes to: `os.Stdout`, or the file made
by `os.Create(localFile)`. For `-o -` `main` passes `os.Stdout` as `writer`. -/
inductive Handle where
  | stdout
  | file
  deriving DecidableEq

/-- The two files behind the handles. -/
structure Files where
  stdout : Sink
  file : Sink
  deriving DecidableEq

/-- The file a handle names. -/
def Files.get (fs : Files) : Handle → Sink
  | .stdout => fs.stdout
  | .file => fs.file

/-- The call `h.Write(p)` on the file the handle `h` names. -/
def Files.write (fs : Files) (h : Handle) (p : List Byte) : Files × Nat × Option Error :=
  match h with
  | .stdout => ({ fs with stdout := (fs.stdout.write p).1 }, (fs.stdout.write p).2)
  | .file => ({ fs with file := (fs.file.write p).1 }, (fs.file.write p).2)

/-- What `fmt.Printf` and `fmt.Println` do with the text `s` they have
formatted: they write its bytes to `os.Stdout`; the source drops their
results. -/
def Files.print (fs : Files) (s : String) : Files :=
  (fs.write Handle.stdout (utf8 s)).1

/-- What the progress line depends on outside `main.go`: the width of the
terminal (the value the source assigns to `width` in `progressBar`) and the
function `humanize.Bytes`. -/
structure Display where
  width : Int
  humanize : Nat → String

/-! ## The catalog -/

/-- The fields of `zip.File` that `main.go` uses, and the result of
`file.Open()`. Names are compared as Go compares strings, element by
element. -/
structure ZipFile where
  Name : String
  UncompressedSize64 : Nat
  Open : Except Error Stream

/-- The `zip.Reader`; `File` is `none` for a `nil` slice. -/
structure Reader where
  File : Option (List ZipFile)

/-! ## getBufferSize and downloadFile -/

/-- The function `getBufferSize`. -/
def getBufferSize (lim : Nat) : Nat :=
  if lim < defaultBufferSize then lim else defaultBufferSize

/-- One evaluation of `progressBar(int(downloaded*100/filesize))`: the values
of `downloaded` and `filesize` and the argument handed to `progressBar`. -/
structure Progress where
  downloaded : Nat
  filesize : Nat
  percent : Int
  deriving DecidableEq

/-- The variables of `downloadFile` during the copy: the stream `rc`, the
files it writes to, the counter `downloaded` and the length of `buf`; and, as
a record of the run, the value of `downloaded` after each
`downloaded += uint64(n)`, the progress evaluations, and the number of
`writer.Write` calls that returned an error. -/
structure Copy where
  rc : Stream
  files : Files
  downloaded : Nat
  buf : Nat
  trace : List Nat
  progress : List Progress
  writeErrors : Nat
  deriving DecidableEq

/-- How a run of `downloadFile` ends: it returns `err`, it panics (integer
division by zero), or the fuel of the model runs out. -/
inductive Outcome where
  | returned (err : Option Error) (st : Copy)
  | panicked (st : Copy)
  | timeout (st : Copy)
  deriving DecidableEq

/-- The state an outcome carries. -/
def Outcome.state : Outcome → Copy
  | .returned _ st => st
  | .panicked st => st
  | .timeout st => st

/-- The length of `buf` after the adjustment at the head of the loop body:
`if downloaded+defaultBufferSize > filesize { buf = make([]byte, filesize-downloaded) }`,
in `uint64` arithmetic (the sum is written with the constant first, which
keeps it from being unfolded into 131072 successors). That `make` fails on a
length too large to allocate is not represented. -/
def bufLen (filesize : Nat) (st : Copy) : Nat :=
  if u64 (defaultBufferSize + st.downloaded) > filesize then
    u64 (filesize + 2 ^ 64 - st.downloaded)
  else st.buf

/-- The text of the call `fmt.Printf("\r%s %10s/%-10s", progressBar(percent),
humanize.Bytes(downloaded), humanizedFilesize)`. -/
def progressLine (d : Display) (downloaded filesize : Nat) (percent : Int) : String :=
  "\r" ++ progressBar d.width percent ++ " " ++ padLeft 10 (d.humanize downloaded) ++ "/"
    ++ padRight 10 (d.humanize filesize)

/-- The end of `downloadFile` after a `break`: `if verbose { fmt.Println() }`
and `return err` of the outer `err`, which is `nil` once `file.Open()` has
succeeded. -/
def finish (verbose : Bool) (st : Copy) : Outcome :=
  .returned none (if verbose then { st with files := st.files.print "\n" } else st)

/-- The branch of the loop body taken after a read that is to be written
(lines 141 to 155 of `main.go`), for the chunk `p = buf[:n]`: the write to
`writer`, the count, the progress line printed to `os.Stdout` and the test
of the limit. Both results of `writer.Write` are dropped by the source. -/
def writeChunk (verbose : Bool) (limitBytes : Nat) (d : Display) (writer : Handle)
    (filesize : Nat) (st : Copy) (p : List Byte) : Copy ⊕ Outcome :=
  let downloaded := u64 (st.downloaded + p.length)
  let st := { st with
    files := (st.files.write writer p).1,
    downloaded := downloaded,
    trace := st.trace ++ [downloaded],
    writeErrors :=
      if (st.files.write writer p).2.2 = none then st.writeErrors else st.writeErrors + 1 }
  if verbose ∧ filesize = 0 then .inr (.panicked st)
  else
    let st :=
      if verbose then
        { st with
          files := st.files.print
            (progressLine d downloaded filesize (intOfU64 (u64 (downloaded * 100) / filesize))),
          progress := st.progress ++
            [⟨downloaded, filesize, intOfU64 (u64 (downloaded * 100) / filesize)⟩] }
      else st
    if limitBytes ≠ 0 ∧ downloaded ≥ limitBytes then .inr (finish verbose st)
    else .inl st

/-- One pass through the body of the `for` loop of `downloadFile`: either
the state at the start of the next pass, or the way the function ends. -/
def copyBody (verbose : Bool) (limitBytes : Nat) (d : Display) (writer : Handle)
    (filesize : Nat) (st : Copy) : Copy ⊕ Outcome :=
  -- adjust the size of the buffer
  let buf := bufLen filesize st
  match readFull st.rc buf with
  | (p, err, rc) =>
    if (p.length > 0 ∧ err = none) ∨ err = some Error.EOF then
      writeChunk verbose limitBytes d writer filesize { st with buf := buf, rc := rc } p
    else if err ≠ none then .inr (.returned err { st with buf := buf, rc := rc })
    else .inr (finish verbose { st with buf := buf, rc := rc })

/-- The `for` loop of `downloadFile`, run for at most `fuel` passes. -/
def copyLoop (verbose : Bool) (limitBytes : Nat) (d : Display) (writer : Handle)
    (filesize : Nat) : Nat → Copy → Outcome
  | 0, st => .timeout st
  | fuel + 1, st =>
    match copyBody verbose limitBytes d writer filesize st with
    | .inl st => copyLoop verbose limitBytes d writer filesize fuel st
    | .inr o => o

/-- The function `downloadFile`, for the values `verbose` and `limitBytes`
of the package variables, the display `d`, the handle `writer` and the
files `files` of the process, with at most `fuel` passes through its loop. -/
def downloadFile (verbose : Bool) (limitBytes : Nat) (d : Display) (file : ZipFile)
    (writer : Handle) (files : Files) (fuel : Nat) : Outcome :=
  match file.Open with
  | .error err => .returned (some err) ⟨⟨[], err⟩, files, 0, 0, [], [], 0⟩
  | .ok rc =>
    let downloaded := 0
    let (filesize, buf) :=
      if limitBytes ≠ 0 then (limitBytes, getBufferSize limitBytes)
      else (file.UncompressedSize64, defaultBufferSize)
    copyLoop verbose limitBytes d writer filesize fuel ⟨rc, files, downloaded, buf, [], [], 0⟩

/-! ## findFile and listFiles -/

/-- The loop `for _, f := range reader.File` of `findFile`: the first file
whose name is `filename`. -/
def findLoop (filename : String) : List ZipFile → Option ZipFile
  | [] => none
  | f :: fs => if f.Name = filename then some f else findLoop filename fs

/-- The function `findFile`. -/
def findFile (reader : Reader) (filename : String) : Except Error ZipFile :=
  match reader.File with
  | none => .error (.other "file read error")
  | some files =>
    match findLoop filename files with
    | some f => .ok f
    | none => .error (.other "unable to find file")

/-- The loop `for _, f := range reader.File` of `listFiles`, from the value
`total` of the sum and the text `out` printed so far (one string for each
`Printf`); `humanize` is `humanize.Bytes`. -/
def listLoop (humanize : Nat → String) : List ZipFile → Nat → List String → Nat × List String
  | [], total, out => (total, out)
  | f :: fs, total, out =>
    listLoop humanize fs (u64 (total + f.UncompressedSize64))
      (out ++ [padLeft 6 (humanize f.UncompressedSize64) ++ " \t " ++ f.Name ++ "\n"])

/-- The function `listFiles`: the error it returns and what it prints. -/
def listFiles (humanize : Nat → String) (reader : Reader) : Option Error × List String :=
  match reader.File with
  | none => (some (.other "file read error"), [])
  | some files =>
    match listLoop humanize files 0 [] with
    | (total, out) => (none, out ++ ["------\n", padLeft 6 (humanize total) ++ "\n"])

/-! ## Auxiliary notions for the proofs -/

/-- The state after the chunk `p` has been written, counted and reported. -/
def afterWrite (v : Bool) (d : Display) (w : Handle) (fs : Nat) (st : Copy) (p : List Byte) :
    Copy :=
  { rc := st.rc,
    files :=
      if v = true then
        (st.files.write w p).1.print
          (progressLine d (u64 (st.downloaded + p.length)) fs
            (intOfU64 (u64 (u64 (st.downloaded + p.length) * 100) / fs)))
      else (st.files.write w p).1,
    downloaded := u64 (st.downloaded + p.length),
    buf := st.buf,
    trace := st.trace ++ [u64 (st.downloaded + p.length)],
    progress :=
      if v = true then
        st.progress ++ [⟨u64 (st.downloaded + p.length), fs,
          intOfU64 (u64 (u64 (st.downloaded + p.length) * 100) / fs)⟩]
      else st.progress,
    writeErrors :=
      if (st.files.write w p).2.2 = none then st.writeErrors else st.writeErrors + 1 }

/-- A terminal of 50 columns, sizes printed as `humanize.Bytes` prints
those below 1000 bytes. -/
def smallDisplay : Display := ⟨50, fun n => toString n ++ " B"⟩

/-- The state `finish` returns. -/
def finishState (v : Bool) (st : Copy) : Copy :=
  if v = true then { st with files := st.files.print "\n" } else st

/-- A progress evaluation with a divisor that is not zero, a counter within
the target and a percentage between 0 and 100. -/
def Progress.ok (e : Progress) : Prop :=
  e.filesize ≠ 0 ∧ e.downloaded ≤ e.filesize ∧ 0 ≤ e.percent ∧ e.percent ≤ 100

/-- What holds of the variables at the head of every pass of the loop, for
the limit `L` and the target `fs`. -/
structure Inv (L fs : Nat) (st : Copy) : Prop where
  below : L ≠ 0 → st.downloaded < L
  within : st.downloaded ≤ fs
  buffer : st.buf = 131072 ∨ fs < st.downloaded + 131072
  traced : ∀ x ∈ st.trace, x ≤ fs
  reported : ∀ e ∈ st.progress, e.ok

/-- What holds of a run at any point: no panic so far, and the counter and
the reports within their bounds. -/
structure Safe (fs : Nat) (o : Outcome) : Prop where
  noPanic : ∀ s, o ≠ .panicked s
  within : o.state.downloaded ≤ fs
  traced : ∀ x ∈ o.state.trace, x ≤ fs
  reported : ∀ e ∈ o.state.progress, e.ok

/-! ## Machine arithmetic -/

theorem defaultBufferSize_eq : defaultBufferSize = 131072 := rfl

theorem u64_eq (n : Nat) : u64 n = n % 2 ^ 64 := by
  unfold u64
  rfl

theorem u64_of_lt (n : Nat) (h : n < 2 ^ 64) : u64 n = n := by
  rw [u64_eq]
  exact Nat.mod_eq_of_lt h

theorem u64_lt (n : Nat) : u64 n < 2 ^ 64 := by
  rw [u64_eq]
  exact Nat.mod_lt _ (by norm_num)

/-! ## Properties of the formatting and of progressBar -/

theorem int64wrap_of_range (x : Int) (h1 : -2 ^ 63 ≤ x) (h2 : x < 2 ^ 63) : int64wrap x = x := by
  unfold int64wrap
  omega

theorem string_append_mk (a b : List Char) : String.mk a ++ String.mk b = String.mk (a ++ b) := rfl

/-- Appending a list of characters one by one. -/
theorem append_replicate_succ (bar : String) (c : Char) (n : Nat) :
    (bar ++ String.mk [c]) ++ String.mk (List.replicate n c)
      = bar ++ String.mk (List.replicate (n + 1) c) := by
  rw [String.append_assoc, string_append_mk]
  rfl

theorem fillLoop_eq (c : Int) : ∀ (n : Nat) (i : Int) (bar : String), (c - i).toNat = n →
    fillLoop c i bar = bar ++ String.mk (List.replicate n '=') := by
  intro n
  induction n with
  | zero =>
    intro i bar h
    rw [fillLoop, if_neg (by omega)]
    apply String.ext
    simp
  | succ n ih =>
    intro i bar h
    rw [fillLoop, if_pos (by omega), ih (i + 1) _ (by omega)]
    exact append_replicate_succ bar '=' n

theorem padLoop_eq (c : Int) : ∀ (n : Nat) (i : Int) (bar : String), (i - c).toNat = n →
    padLoop c i bar = bar ++ String.mk (List.replicate n ' ') := by
  intro n
  induction n with
  | zero =>
    intro i bar h
    rw [padLoop, if_neg (by omega)]
    apply String.ext
    simp
  | succ n ih =>
    intro i bar h
    rw [padLoop, if_pos (by omega), ih (i - 1) _ (by omega)]
    exact append_replicate_succ bar ' ' n

/-- The text of the bar in terms of the two wrapped products of the source. -/
theorem progressBar_eq (W p : Int) :
    progressBar W p =
      "[" ++ String.mk (List.replicate
              (Int.tdiv (int64wrap (p * int64wrap (W - 40))) 100).toNat '=')
        ++ ">" ++ String.mk (List.replicate
              (int64wrap (W - 40) - Int.tdiv (int64wrap (p * int64wrap (W - 40))) 100).toNat ' ')
        ++ "] " ++ sprintf3dPercent p := by
  simp only [progressBar]
  rw [fillLoop_eq _ _ 0 _ (by rw [sub_zero]), padLoop_eq _ _ _ _ rfl]

theorem tdiv_hundred_of_nonpos (x : Int) (h : x ≤ 0) : Int.tdiv x 100 = -((-x) / 100) := by
  have hx : x = -(-x) := by omega
  conv_lhs => rw [hx]
  rw [Int.neg_tdiv, Int.tdiv_eq_ediv (by omega) (by omega)]

/-- C8 (amended): for a percentage `0 ≤ p ≤ 100` and a terminal width `W`
for which `W - 40` and `p * (W - 40)` are 64-bit signed integers, `progressBar`
yields `[`, then `max(0, c)` characters `=`, then `>`, then
`max(0, (W - 40) - c)` spaces, then `]` and one space, then `p` right-justified
in three characters and `%`, where `c = p * (W - 40) / 100` truncated; and
for `W < 40` it is `[>] ` followed by the percentage. -/
theorem progressBar_format (W p : Int) (hp0 : 0 ≤ p) (hp100 : p ≤ 100)
    (hw1 : -2 ^ 63 ≤ W - 40) (hw2 : W - 40 < 2 ^ 63)
    (hc1 : -2 ^ 63 ≤ p * (W - 40)) (hc2 : p * (W - 40) < 2 ^ 63) :
    progressBar W p =
      "[" ++ String.mk (List.replicate (Int.tdiv (p * (W - 40)) 100).toNat '=')
        ++ ">" ++ String.mk (List.replicate ((W - 40) - Int.tdiv (p * (W - 40)) 100).toNat ' ')
        ++ "] " ++ padLeft 3 (toString p) ++ "%" ∧
    (W < 40 → progressBar W p = "[>] " ++ padLeft 3 (toString p) ++ "%") := by
  have key := progressBar_eq W p
  rw [int64wrap_of_range _ hw1 hw2, int64wrap_of_range _ hc1 hc2] at key
  simp only [sprintf3dPercent] at key
  rw [← String.append_assoc] at key
  refine ⟨key, ?_⟩
  intro hW
  rw [key]
  have hy : 100 * (W - 40) ≤ p * (W - 40) := by nlinarith
  have hy0 : p * (W - 40) ≤ 0 := by nlinarith
  have hc : Int.tdiv (p * (W - 40)) 100 = -((-(p * (W - 40))) / 100) :=
    tdiv_hundred_of_nonpos _ hy0
  have e1 : (Int.tdiv (p * (W - 40)) 100).toNat = 0 := by
    rw [hc]
    generalize p * (W - 40) = y at hy hy0
    omega
  have e2 : ((W - 40) - Int.tdiv (p * (W - 40)) 100).toNat = 0 := by
    rw [hc]
    generalize p * (W - 40) = y at hy hy0
    omega
  rw [e1, e2]
  rfl

/-- Witness of C8: the bar for width 100 at 50 per cent. -/
theorem progressBar_format_witness :
    progressBar 100 50 =
      "[==============================>                              ]  50%" :=
  (progressBar_format 100 50 (by decide) (by decide) (by decide) (by decide)
    (by decide) (by decide)).1.trans (by decide)

/-- Counterexample to C8 as stated. For width 100 and 50 per cent the text
the claim describes, with the percentage field directly after the closing
bracket, is not the bar: the source writes a space between them. And for the
width `2^62 + 40` and 2 per cent the product `p * (W - 40)` leaves the 64-bit
range: `c = 2 * 2^62 / 100` is positive, yet the bar has no `=` at all. -/
theorem progressBar_counterexample :
    progressBar 100 50 ≠
      "[" ++ String.mk (List.replicate 30 '=') ++ ">" ++ String.mk (List.replicate 30 ' ')
        ++ "]" ++ padLeft 3 (toString (50 : Int)) ++ "%" ∧
    (0 : Int) < Int.tdiv (2 * ((2 ^ 62 + 40) - 40)) 100 ∧
    (progressBar (2 ^ 62 + 40) 2).data.count '=' = 0 := by
  refine ⟨?_, by decide, ?_⟩
  · rw [progressBar_eq]
    decide
  · rw [progressBar_eq]
    have e1 : (Int.tdiv (int64wrap (2 * int64wrap ((2 ^ 62 + 40) - 40))) 100).toNat = 0 := by
      decide
    rw [e1]
    generalize (int64wrap ((2 ^ 62 + 40) - 40)
      - Int.tdiv (int64wrap (2 * int64wrap ((2 ^ 62 + 40) - 40))) 100).toNat = N
    simp only [String.data_append, List.count_append, List.count_replicate]
    rw [if_neg (show ¬ ((' ' == '=') = true) by decide)]
    decide

/-! ## Properties of findFile -/

theorem findLoop_eq_none (filename : String) (files : List ZipFile) :
    findLoop filename files = none ↔ ∀ f ∈ files, f.Name ≠ filename := by
  induction files with
  | nil => simp [findLoop]
  | cons g gs ih =>
    by_cases hg : g.Name = filename
    · simp [findLoop, hg]
    · simp [findLoop, hg, ih]

theorem findLoop_eq_some (filename : String) (files : List ZipFile) (f : ZipFile)
    (h : findLoop filename files = some f) :
    ∃ pre post, files = pre ++ f :: post ∧ f.Name = filename ∧ ∀ g ∈ pre, g.Name ≠ filename := by
  induction files with
  | nil => simp [findLoop] at h
  | cons g gs ih =>
    by_cases hg : g.Name = filename
    · simp only [findLoop, hg, if_true, Option.some.injEq] at h
      subst h
      exact ⟨[], gs, rfl, hg, by simp⟩
    · simp only [findLoop, hg, if_false] at h
      obtain ⟨pre, post, e, hn, hpre⟩ := ih h
      refine ⟨g :: pre, post, by rw [e]; rfl, hn, ?_⟩
      intro x hx
      rcases List.mem_cons.mp hx with rfl | hx
      · exact hg
      · exact hpre x hx

/-- C5: for a catalog whose entry list `files` is not nil, `findFile`
succeeds exactly when some entry has the requested name; the entry it
returns has that name and no entry before it in the catalog has; and when no
entry has exactly that name (for instance when the names differ in case) it
returns an error. -/
theorem findFile_first_exact_match (reader : Reader) (files : List ZipFile) (filename : String)
    (h : reader.File = some files) :
    ((∃ f, findFile reader filename = .ok f) ↔ ∃ f ∈ files, f.Name = filename) ∧
    (∀ f, findFile reader filename = .ok f →
      ∃ pre post, files = pre ++ f :: post ∧ f.Name = filename ∧
        ∀ g ∈ pre, g.Name ≠ filename) ∧
    ((∀ f ∈ files, f.Name ≠ filename) → ∃ e, findFile reader filename = .error e) := by
  have found : ∀ f, findFile reader filename = .ok f → findLoop filename files = some f := by
    intro f hf
    simp only [findFile, h] at hf
    cases hl : findLoop filename files with
    | none => rw [hl] at hf; cases hf
    | some g =>
      rw [hl] at hf
      cases hf
      rfl
  refine ⟨⟨?_, ?_⟩, ?_, ?_⟩
  · rintro ⟨f, hf⟩
    obtain ⟨pre, post, e, hn, -⟩ := findLoop_eq_some _ _ _ (found f hf)
    exact ⟨f, by rw [e]; simp, hn⟩
  · rintro ⟨f, hf, hn⟩
    cases hl : findLoop filename files with
    | none => exact absurd hn ((findLoop_eq_none _ _).mp hl f hf)
    | some g => exact ⟨g, by simp only [findFile, h, hl]⟩
  · intro f hf
    exact findLoop_eq_some _ _ _ (found f hf)
  · intro hall
    refine ⟨.other "unable to find file", ?_⟩
    simp only [findFile, h, (findLoop_eq_none _ _).mpr hall]

/-- Witness of C5: a catalog of two entries, asked for a name that differs
from the first entry's name in case only. -/
theorem findFile_first_exact_match_witness :
    ∃ e, findFile ⟨some [⟨"README.md", 12, .error .EOF⟩, ⟨"b.bin", 500000, .error .EOF⟩]⟩
      "readme.md" = .error e :=
  (findFile_first_exact_match
    ⟨some [⟨"README.md", 12, .error .EOF⟩, ⟨"b.bin", 500000, .error .EOF⟩]⟩
    [⟨"README.md", 12, .error .EOF⟩, ⟨"b.bin", 500000, .error .EOF⟩] "readme.md" rfl).2.2
    (by decide)

/-! ## Properties of listFiles -/

theorem listLoop_eq (humanize : Nat → String) : ∀ (files : List ZipFile) (total : Nat)
    (out : List String), total < 2 ^ 64 →
    listLoop humanize files total out =
      ((total + (files.map (fun f => f.UncompressedSize64)).sum) % 2 ^ 64,
        out ++ files.map (fun f =>
          padLeft 6 (humanize f.UncompressedSize64) ++ " \t " ++ f.Name ++ "\n")) := by
  intro files
  induction files with
  | nil =>
    intro total out ht
    simp only [listLoop, List.map_nil, List.sum_nil, Nat.add_zero, List.append_nil,
      Nat.mod_eq_of_lt ht]
  | cons f fs ih =>
    intro total out ht
    have hlt : u64 (total + f.UncompressedSize64) < 2 ^ 64 := u64_lt _
    rw [listLoop, ih _ _ hlt]
    simp only [u64_eq, List.map_cons, List.sum_cons, List.append_assoc, List.singleton_append,
      Nat.mod_add_mod, Nat.add_assoc]

/-- C7 (amended): for a catalog of `N` entries `listFiles` returns no error
and prints `N` entry lines in catalog order, each made of the entry's
humanized uncompressed size in a field of six characters and its name, then
the rule, then the humanized total, where the total is the sum of the `N`
uncompressed sizes reduced modulo `2^64`: the arithmetic sum whenever that
sum is below `2^64`. -/
theorem listFiles_output (humanize : Nat → String) (reader : Reader) (files : List ZipFile)
    (h : reader.File = some files) :
    listFiles humanize reader =
      (none,
        files.map (fun f =>
          padLeft 6 (humanize f.UncompressedSize64) ++ " \t " ++ f.Name ++ "\n") ++
        ["------\n",
          padLeft 6 (humanize ((files.map (fun f => f.UncompressedSize64)).sum % 2 ^ 64))
            ++ "\n"]) ∧
    ((files.map (fun f => f.UncompressedSize64)).sum < 2 ^ 64 →
      listFiles humanize reader =
        (none,
          files.map (fun f =>
            padLeft 6 (humanize f.UncompressedSize64) ++ " \t " ++ f.Name ++ "\n") ++
          ["------\n",
            padLeft 6 (humanize (files.map (fun f => f.UncompressedSize64)).sum) ++ "\n"])) := by
  have key : listFiles humanize reader =
      (none,
        files.map (fun f =>
          padLeft 6 (humanize f.UncompressedSize64) ++ " \t " ++ f.Name ++ "\n") ++
        ["------\n",
          padLeft 6 (humanize ((files.map (fun f => f.UncompressedSize64)).sum % 2 ^ 64))
            ++ "\n"]) := by
    simp only [listFiles, h]
    rw [listLoop_eq humanize files 0 [] (by norm_num)]
    simp
  refine ⟨key, fun hs => ?_⟩
  rw [key, Nat.mod_eq_of_lt hs]

/-- Witness of C7: the catalog of the entries `a.txt` (12 bytes) and `b.bin`
(500000 bytes), the sizes printed in decimal. -/
theorem listFiles_output_witness :
    listFiles (fun n => toString n)
        ⟨some [⟨"a.txt", 12, .error .EOF⟩, ⟨"b.bin", 500000, .error .EOF⟩]⟩ =
      (none, ["    12 \t a.txt\n", "500000 \t b.bin\n", "------\n", "500012\n"]) :=
  (listFiles_output (fun n => toString n)
    ⟨some [⟨"a.txt", 12, .error .EOF⟩, ⟨"b.bin", 500000, .error .EOF⟩]⟩
    [⟨"a.txt", 12, .error .EOF⟩, ⟨"b.bin", 500000, .error .EOF⟩] rfl).1.trans (by decide)

/-- Counterexample to C7 as stated: two entries of `2^63` bytes each have the
sum `2^64`, and the total `listFiles` reports is that of `0`. -/
theorem listFiles_counterexample :
    listFiles (fun n => toString n)
        ⟨some [⟨"a", 2 ^ 63, .error .EOF⟩, ⟨"b", 2 ^ 63, .error .EOF⟩]⟩ =
      (none, ["9223372036854775808 \t a\n", "9223372036854775808 \t b\n", "------\n",
        "     0\n"]) ∧
    (2 ^ 63 + 2 ^ 63 : Nat) = 18446744073709551616 := by
  constructor
  · simp only [listFiles]
    rw [listLoop_eq _ _ 0 [] (by norm_num)]
    decide
  · norm_num

/-! ## Properties of downloadFile: one pass of the loop -/

theorem bufLen_keep (fs : Nat) (st : Copy) (h : st.downloaded + 131072 ≤ fs) (hfs : fs < 2 ^ 64) :
    bufLen fs st = st.buf := by
  unfold bufLen
  rw [defaultBufferSize_eq, u64_of_lt _ (by omega), if_neg (by omega)]

theorem bufLen_shrink (fs : Nat) (st : Copy) (hd : st.downloaded ≤ fs)
    (h : fs < st.downloaded + 131072) (hw : st.downloaded + 131072 < 2 ^ 64) :
    bufLen fs st = fs - st.downloaded := by
  unfold bufLen
  rw [defaultBufferSize_eq, u64_of_lt _ (by omega), if_pos (by omega), u64_eq]
  omega

theorem write_unbounded (w : Sink) (p : List Byte) (h : w.room = none) :
    (w.write p).1 = ⟨w.content ++ p, none⟩ := by
  cases w with
  | mk content room =>
    simp only at h
    subst h
    rfl

theorem write_nil (w : Sink) : (w.write []).1 = w := by
  cases w with
  | mk content room =>
    cases room with
    | none => simp [Sink.write]
    | some r => simp [Sink.write]

/-- Two writes one after the other leave the sink as one write of both chunks. -/
theorem write_write (w : Sink) (p q : List Byte) :
    ((w.write p).1.write q).1 = (w.write (p ++ q)).1 := by
  cases w with
  | mk content room =>
    cases room with
    | none => simp [Sink.write]
    | some r =>
      by_cases hp : p.length ≤ r
      · by_cases hq : q.length ≤ r - p.length
        · have hpq : p.length + q.length ≤ r := by omega
          simp [Sink.write, hp, hq, hpq]
          omega
        · have hpq : ¬ p.length + q.length ≤ r := by omega
          simp [Sink.write, hp, hq, hpq, List.take_append_eq_append_take,
            List.take_of_length_le hp]
      · have hpq : ¬ p.length + q.length ≤ r := by omega
        have hle : r ≤ p.length := by omega
        by_cases hq : q.length = 0
        · have hq' : q = [] := List.length_eq_zero.mp hq
          subst hq'
          simp [Sink.write, hp]
        · simp [Sink.write, hp, hq, hpq, List.take_append_eq_append_take]
          omega

theorem get_write_same (fs : Files) (h : Handle) (p : List Byte) :
    (fs.write h p).1.get h = ((fs.get h).write p).1 := by
  cases h <;> rfl

/-- Printing leaves the created file as it is. -/
theorem get_print_file (fs : Files) (s : String) :
    (fs.print s).get Handle.file = fs.get Handle.file := rfl

/-- What `finish` returns. -/
theorem finish_eq (v : Bool) (st : Copy) : finish v st = .returned none (finishState v st) := by
  cases v <;> rfl

theorem finishState_downloaded (v : Bool) (st : Copy) :
    (finishState v st).downloaded = st.downloaded := by
  cases v <;> rfl

theorem finishState_trace (v : Bool) (st : Copy) : (finishState v st).trace = st.trace := by
  cases v <;> rfl

theorem finishState_progress (v : Bool) (st : Copy) :
    (finishState v st).progress = st.progress := by
  cases v <;> rfl

/-- Without progress display, or with a writer that is not standard output,
the end of the function leaves the writer's file as it is. -/
theorem finishState_get (v : Bool) (w : Handle) (st : Copy) (hq : v = false ∨ w = Handle.file) :
    (finishState v st).files.get w = st.files.get w := by
  cases v with
  | false => rfl
  | true =>
    rcases hq with h | h
    · cases h
    · subst h
      rfl

/-- A pass of the loop body whose buffer the stream fills. -/
theorem copyBody_read (v : Bool) (L : Nat) (d : Display) (w : Handle) (fs : Nat) (st : Copy)
    (hpos : 0 < bufLen fs st) (hlen : bufLen fs st ≤ st.rc.data.length) :
    copyBody v L d w fs st =
      writeChunk v L d w fs
        { st with buf := bufLen fs st,
                  rc := { st.rc with data := st.rc.data.drop (bufLen fs st) } }
        (st.rc.data.take (bufLen fs st)) := by
  have hr : readFull st.rc (bufLen fs st) =
      (st.rc.data.take (bufLen fs st), none,
        { st.rc with data := st.rc.data.drop (bufLen fs st) }) := by
    unfold readFull
    rw [if_neg (by omega), if_pos hlen]
  have hl : (st.rc.data.take (bufLen fs st)).length > 0 := by
    rw [List.length_take]; omega
  unfold copyBody
  dsimp only
  rw [hr]
  dsimp only
  rw [if_pos (Or.inl ⟨hl, rfl⟩)]

/-- A pass of the loop body with a buffer of length zero: the loop ends. -/
theorem copyBody_empty_buf (v : Bool) (L : Nat) (d : Display) (w : Handle) (fs : Nat)
    (st : Copy) (h : bufLen fs st = 0) :
    copyBody v L d w fs st = .inr (finish v { st with buf := 0 }) := by
  have hr : readFull st.rc (bufLen fs st) = ([], none, st.rc) := by
    unfold readFull
    rw [if_pos h]
  unfold copyBody
  dsimp only
  rw [hr]
  dsimp only
  rw [if_neg (by simp), if_neg (by simp), h]

/-- A pass of the loop body on a stream that ends inside the buffer. -/
theorem copyBody_short (v : Bool) (L : Nat) (d : Display) (w : Handle) (fs : Nat) (st : Copy)
    (hpos : 0 < st.rc.data.length) (hlen : st.rc.data.length < bufLen fs st) :
    copyBody v L d w fs st =
      .inr (.returned (some (if st.rc.fin = Error.EOF then Error.ErrUnexpectedEOF else st.rc.fin))
        { st with buf := bufLen fs st, rc := { st.rc with data := [] } }) := by
  have hr : readFull st.rc (bufLen fs st) =
      (st.rc.data, some (if st.rc.fin = Error.EOF then Error.ErrUnexpectedEOF else st.rc.fin),
        { st.rc with data := [] }) := by
    unfold readFull
    rw [if_neg (by omega), if_neg (by omega), if_neg (by omega)]
  have hne : (if st.rc.fin = Error.EOF then Error.ErrUnexpectedEOF else st.rc.fin) ≠ Error.EOF := by
    split_ifs with h
    · simp
    · exact h
  unfold copyBody
  dsimp only
  rw [hr]
  dsimp only
  rw [if_neg (by simp [hne]), if_pos (by simp)]

/-- A pass of the loop body at the end of a stream that ends normally: an
empty chunk is written and counted. -/
theorem copyBody_eof (v : Bool) (L : Nat) (d : Display) (w : Handle) (fs : Nat) (st : Copy)
    (hdata : st.rc.data.length = 0) (hpos : 0 < bufLen fs st) (hfin : st.rc.fin = Error.EOF) :
    copyBody v L d w fs st = writeChunk v L d w fs { st with buf := bufLen fs st } [] := by
  have hr : readFull st.rc (bufLen fs st) = ([], some Error.EOF, st.rc) := by
    unfold readFull
    rw [if_neg (by omega), if_neg (by omega), if_pos hdata, hfin]
  unfold copyBody
  dsimp only
  rw [hr]
  dsimp only
  rw [if_pos (Or.inr rfl)]

/-- A pass of the loop body at the end of a stream that ends with an error. -/
theorem copyBody_fail (v : Bool) (L : Nat) (d : Display) (w : Handle) (fs : Nat) (st : Copy)
    (hdata : st.rc.data.length = 0) (hpos : 0 < bufLen fs st) (hfin : st.rc.fin ≠ Error.EOF) :
    copyBody v L d w fs st = .inr (.returned (some st.rc.fin) { st with buf := bufLen fs st }) := by
  have hr : readFull st.rc (bufLen fs st) = ([], some st.rc.fin, st.rc) := by
    unfold readFull
    rw [if_neg (by omega), if_neg (by omega), if_pos hdata]
  unfold copyBody
  dsimp only
  rw [hr]
  dsimp only
  rw [if_neg (by simp [hfin]), if_pos (by simp)]

/-- What `writeChunk` does when the progress division is defined. -/
theorem writeChunk_eq (v : Bool) (L : Nat) (d : Display) (w : Handle) (fs : Nat)
    (st : Copy) (p : List Byte)
    (hfs : v = true → fs ≠ 0) :
    writeChunk v L d w fs st p =
      if L ≠ 0 ∧ u64 (st.downloaded + p.length) ≥ L then
        .inr (finish v (afterWrite v d w fs st p))
      else .inl (afterWrite v d w fs st p) := by
  cases v with
  | false =>
    unfold writeChunk afterWrite
    simp
  | true =>
    have h0 : fs ≠ 0 := hfs rfl
    unfold writeChunk afterWrite
    simp [h0]

/-! ## Properties of downloadFile: the loop -/

theorem copyLoop_next (v : Bool) (L : Nat) (d : Display) (w : Handle) (fs : Nat) (n : Nat)
    (st st' : Copy)
    (h : copyBody v L d w fs st = .inl st') :
    copyLoop v L d w fs (n + 1) st = copyLoop v L d w fs n st' := by
  rw [copyLoop, h]

theorem copyLoop_stop (v : Bool) (L : Nat) (d : Display) (w : Handle) (fs : Nat) (n : Nat)
    (st : Copy) (o : Outcome)
    (h : copyBody v L d w fs st = .inr o) :
    copyLoop v L d w fs (n + 1) st = o := by
  rw [copyLoop, h]

/-- More fuel does not change a run that has ended. -/
theorem copyLoop_mono (v : Bool) (L : Nat) (d : Display) (w : Handle) (fs : Nat) :
    ∀ (n : Nat) (st : Copy) (o : Outcome),
    copyLoop v L d w fs n st = o → (∀ s, o ≠ .timeout s) → ∀ j, copyLoop v L d w fs (n + j) st = o := by
  intro n
  induction n with
  | zero =>
    intro st o h hne
    rw [copyLoop] at h
    exact absurd h.symm (hne st)
  | succ n ih =>
    intro st o h hne j
    rw [show n + 1 + j = (n + j) + 1 by omega]
    cases hb : copyBody v L d w fs st with
    | inl st' =>
      rw [copyLoop_next _ _ _ _ _ _ _ _ hb] at h ⊢
      exact ih st' o h hne j
    | inr o' =>
      rw [copyLoop_stop _ _ _ _ _ _ _ _ hb] at h ⊢
      exact h

/-- Without progress display, or with a writer that is not standard output,
a pass leaves the writer's file as after the write of its chunk. -/
theorem afterWrite_get (v : Bool) (d : Display) (w : Handle) (fs : Nat) (st : Copy)
    (p : List Byte) (hq : v = false ∨ w = Handle.file) :
    (afterWrite v d w fs st p).files.get w = ((st.files.get w).write p).1 := by
  cases v with
  | false => exact get_write_same _ _ _
  | true =>
    rcases hq with h | h
    · cases h
    · subst h
      show ((st.files.write Handle.file p).1.print _).get Handle.file = _
      rw [get_print_file, get_write_same]

/-- The copy of the first `fs - downloaded` bytes of a stream that has them,
when the counter cannot wrap and the progress display does not go to the
writer: the loop ends without error after at most `k + 1` passes, `k` chunks
covering what is left, and the writer's file is as after one write of those
bytes. -/
theorem copyLoop_completes (v : Bool) (L : Nat) (d : Display) (w : Handle) (fs : Nat)
    (hq : v = false ∨ w = Handle.file) : ∀ (k : Nat) (st : Copy),
    (L = 0 ∧ fs + 131072 < 2 ^ 64 ∨ L = fs ∧ st.downloaded < L ∧ fs + 131072 ≤ 2 ^ 64) →
    st.downloaded ≤ fs →
    (st.buf = 131072 ∨ fs < st.downloaded + 131072) →
    fs - st.downloaded ≤ st.rc.data.length →
    fs - st.downloaded < 131072 * k →
    ∃ st', copyLoop v L d w fs (k + 1) st = .returned none st' ∧
      st'.files.get w = ((st.files.get w).write (st.rc.data.take (fs - st.downloaded))).1 ∧
      st'.downloaded = fs := by
  intro k
  induction k with
  | zero =>
    intro st _ _ _ _ hk
    omega
  | succ k ih =>
    intro st hL hd hbuf hdata hk
    have hfs64 : fs < 2 ^ 64 := by omega
    by_cases hdone : st.downloaded = fs
    · -- nothing is left: only without a limit, and the buffer shrinks to nothing
      have hb : bufLen fs st = 0 := by
        rw [bufLen_shrink fs st hd (by omega) (by omega)]
        omega
      have hstop := copyBody_empty_buf v L d w fs st hb
      rw [finish_eq] at hstop
      refine ⟨_, copyLoop_stop _ _ _ _ _ _ _ _ hstop, ?_, ?_⟩
      · rw [finishState_get v w _ hq, show fs - st.downloaded = 0 by omega, List.take_zero,
          write_nil]
      · rw [finishState_downloaded]
        exact hdone
    · have hlt : st.downloaded < fs := by omega
      -- the length of the chunk of this pass
      obtain ⟨b, hb, hbpos, hble, hbN, hfull⟩ : ∃ b, bufLen fs st = b ∧ 0 < b ∧
          b ≤ fs - st.downloaded ∧ b ≤ 131072 ∧ (b = 131072 ∨ st.downloaded + b = fs) := by
        by_cases hfar : st.downloaded + 131072 ≤ fs
        · refine ⟨131072, ?_, by omega, by omega, le_refl _, Or.inl rfl⟩
          rw [bufLen_keep fs st hfar hfs64]
          omega
        · refine ⟨fs - st.downloaded, ?_, by omega, le_refl _, by omega, Or.inr (by omega)⟩
          exact bufLen_shrink fs st hd (by omega) (by omega)
      have hstep := copyBody_read v L d w fs st (by omega) (by omega)
      rw [hb, writeChunk_eq v L d w fs _ _ (fun _ => by omega)] at hstep
      have htake : (st.rc.data.take b).length = b := by
        rw [List.length_take]; omega
      simp only [htake] at hstep
      rw [u64_of_lt _ (by omega)] at hstep
      -- the state after the pass
      obtain ⟨st1, hst1, h1d, h1w, h1r, h1b⟩ : ∃ st1 : Copy,
          afterWrite v d w fs
            { st with buf := b, rc := { st.rc with data := st.rc.data.drop b } }
            (st.rc.data.take b) = st1 ∧
          st1.downloaded = st.downloaded + b ∧
          st1.files.get w = ((st.files.get w).write (st.rc.data.take b)).1 ∧
          st1.rc.data = st.rc.data.drop b ∧ st1.buf = b := by
        refine ⟨_, rfl, ?_, afterWrite_get v d w fs _ _ hq, rfl, rfl⟩
        show u64 (st.downloaded + (st.rc.data.take b).length) = _
        rw [htake, u64_of_lt _ (by omega)]
      rw [hst1] at hstep
      have hcat : st.rc.data.take b ++ (st.rc.data.drop b).take (fs - (st.downloaded + b))
          = st.rc.data.take (fs - st.downloaded) := by
        rw [show fs - st.downloaded = b + (fs - (st.downloaded + b)) by omega, List.take_add]
      by_cases hlim : L ≠ 0 ∧ st.downloaded + b ≥ L
      · -- the limit is reached
        rw [if_pos hlim, finish_eq] at hstep
        have hbe : b = fs - st.downloaded := by omega
        refine ⟨_, copyLoop_stop _ _ _ _ _ _ _ _ hstep, ?_, ?_⟩
        · rw [finishState_get v w _ hq, h1w, hbe]
        · rw [finishState_downloaded]
          omega
      · rw [if_neg hlim] at hstep
        rw [copyLoop_next _ _ _ _ _ _ _ _ hstep]
        by_cases hend : st.downloaded + b = fs
        · -- the entry is copied: the next pass has a buffer of length zero
          have hb0 : bufLen fs st1 = 0 := by
            rw [bufLen_shrink fs st1 (by omega) (by omega) (by omega)]
            omega
          have hstop := copyBody_empty_buf v L d w fs st1 hb0
          rw [finish_eq] at hstop
          refine ⟨_, copyLoop_stop _ _ _ _ _ _ _ _ hstop, ?_, ?_⟩
          · rw [finishState_get v w _ hq]
            show st1.files.get w = _
            rw [h1w, show fs - st.downloaded = b by omega]
          · rw [finishState_downloaded]
            show st1.downloaded = fs
            omega
        · have hb131 : b = 131072 := by omega
          obtain ⟨st2, hrun, h2w, h2d⟩ := ih st1 (by omega) (by omega) (by omega)
            (by rw [h1r, List.length_drop]; omega) (by omega)
          refine ⟨st2, hrun, ?_, h2d⟩
          rw [h2w, h1w, h1r, h1d, write_write, hcat]

theorem percent_ok (d fs : Nat) (hd : d ≤ fs) (hfs : fs ≠ 0) :
    Progress.ok ⟨d, fs, intOfU64 (u64 (d * 100) / fs)⟩ := by
  have hq : u64 (d * 100) / fs ≤ 100 := by
    apply Nat.div_le_of_le_mul
    rw [u64_eq]
    calc d * 100 % 2 ^ 64 ≤ d * 100 := Nat.mod_le _ _
      _ ≤ fs * 100 := Nat.mul_le_mul_right _ hd
  generalize u64 (d * 100) / fs = q at hq
  have hi : intOfU64 q = (q : Int) := by
    unfold intOfU64
    apply int64wrap_of_range <;> omega
  refine ⟨hfs, hd, ?_, ?_⟩
  · show 0 ≤ intOfU64 q
    rw [hi]; omega
  · show intOfU64 q ≤ 100
    rw [hi]; omega

/-- A state within bounds ends the function within bounds. -/
theorem safe_finish (v : Bool) (fs : Nat) (st : Copy) (hd : st.downloaded ≤ fs)
    (htr : ∀ x ∈ st.trace, x ≤ fs) (hpr : ∀ e ∈ st.progress, e.ok) :
    Safe fs (finish v st) := by
  rw [finish_eq]
  refine ⟨fun s h => (by cases h), ?_, ?_, ?_⟩
  · show (finishState v st).downloaded ≤ fs
    rw [finishState_downloaded]; exact hd
  · show ∀ x ∈ (finishState v st).trace, x ≤ fs
    rw [finishState_trace]; exact htr
  · show ∀ e ∈ (finishState v st).progress, e.ok
    rw [finishState_progress]; exact hpr

/-- The pass that writes a chunk keeps the invariant. -/
theorem writeChunk_inv (v : Bool) (L : Nat) (d : Display) (w : Handle) (fs : Nat)
    (st : Copy) (p : List Byte)
    (hfs64 : fs < 2 ^ 64)
    (hd : st.downloaded + p.length ≤ fs) (hfs : fs ≠ 0)
    (hbuf : st.buf = 131072 ∨ fs < st.downloaded + 131072)
    (htr : ∀ x ∈ st.trace, x ≤ fs) (hpr : ∀ e ∈ st.progress, e.ok) :
    match writeChunk v L d w fs st p with
    | .inl st' => Inv L fs st'
    | .inr o => Safe fs o := by
  rw [writeChunk_eq v L d w fs st p (fun _ => hfs)]
  have hdl : (afterWrite v d w fs st p).downloaded = st.downloaded + p.length := by
    show u64 _ = _
    exact u64_of_lt _ (by omega)
  have htr' : ∀ x ∈ (afterWrite v d w fs st p).trace, x ≤ fs := by
    intro x hx
    have hx' : x ∈ st.trace ++ [u64 (st.downloaded + p.length)] := hx
    rw [u64_of_lt _ (by omega)] at hx'
    rcases List.mem_append.mp hx' with h | h
    · exact htr x h
    · rw [List.mem_singleton.mp h]; exact hd
  have hpr' : ∀ e ∈ (afterWrite v d w fs st p).progress, e.ok := by
    intro e he
    cases v with
    | false => exact hpr e he
    | true =>
      have he' : e ∈ st.progress ++ [⟨u64 (st.downloaded + p.length), fs,
          intOfU64 (u64 (u64 (st.downloaded + p.length) * 100) / fs)⟩] := he
      rcases List.mem_append.mp he' with h | h
      · exact hpr e h
      · rw [List.mem_singleton.mp h]
        apply percent_ok _ _ _ hfs
        rw [u64_of_lt _ (by omega)]; exact hd
  split_ifs with hlim
  all_goals rw [u64_of_lt _ (by omega)] at hlim
  · exact safe_finish v fs _ (le_of_eq_of_le hdl hd) htr' hpr'
  · refine ⟨fun hL => ?_, by omega, ?_, htr', hpr'⟩
    · rw [hdl]; omega
    · rcases hbuf with h | h
      · exact Or.inl h
      · right; rw [hdl]; omega

/-- Every pass of the loop body keeps the invariant, as long as the counter
cannot wrap. -/
theorem copyBody_inv (v : Bool) (L : Nat) (d : Display) (w : Handle) (fs : Nat)
    (st : Copy)
    (hreg : L = 0 ∧ fs + 131072 < 2 ^ 64 ∨ L = fs ∧ fs + 131072 ≤ 2 ^ 64)
    (hinv : Inv L fs st) :
    match copyBody v L d w fs st with
    | .inl st' => Inv L fs st'
    | .inr o => Safe fs o := by
  obtain ⟨hbelow, hwithin, hbuffer, htr, hpr⟩ := hinv
  have hfs64 : fs < 2 ^ 64 := by omega
  have hb : bufLen fs st + st.downloaded ≤ fs ∧
      (bufLen fs st = 131072 ∨ fs < st.downloaded + 131072) ∧
      (0 < bufLen fs st → fs ≠ 0) := by
    by_cases hfar : st.downloaded + 131072 ≤ fs
    · rw [bufLen_keep fs st hfar hfs64]
      omega
    · have hw : st.downloaded + 131072 < 2 ^ 64 := by
        by_cases hL : L = 0
        · omega
        · have := hbelow hL
          omega
      rw [bufLen_shrink fs st hwithin (by omega) hw]
      omega
  obtain ⟨hb1, hb2, hb3⟩ := hb
  have hsafe : ∀ (err : Option Error) (rc : Stream),
      Safe fs (.returned err { st with buf := bufLen fs st, rc := rc }) :=
    fun err rc => ⟨fun s h => (by cases h), hwithin, htr, hpr⟩
  by_cases hzero : bufLen fs st = 0
  · rw [copyBody_empty_buf v L d w fs st hzero]
    exact safe_finish v fs _ hwithin htr hpr
  · have hpos : 0 < bufLen fs st := by omega
    by_cases hfull : bufLen fs st ≤ st.rc.data.length
    · rw [copyBody_read v L d w fs st hpos hfull]
      refine writeChunk_inv v L d w fs _ _ hfs64 ?_ (hb3 hpos) ?_ htr hpr
      · show st.downloaded + (st.rc.data.take (bufLen fs st)).length ≤ fs
        rw [List.length_take]
        omega
      · exact hb2
    · by_cases hempty : st.rc.data.length = 0
      · by_cases hfin : st.rc.fin = Error.EOF
        · rw [copyBody_eof v L d w fs st hempty hpos hfin]
          refine writeChunk_inv v L d w fs _ _ hfs64 ?_ (hb3 hpos) ?_ htr hpr
          · show st.downloaded + 0 ≤ fs
            omega
          · exact hb2
        · rw [copyBody_fail v L d w fs st hempty hpos hfin]
          exact hsafe _ _
      · rw [copyBody_short v L d w fs st (by omega) (by omega)]
        exact hsafe _ _

/-- At every point of a run that starts from a state with the invariant,
nothing has panicked and the counter and the reports are within bounds. -/
theorem copyLoop_safe (v : Bool) (L : Nat) (d : Display) (w : Handle) (fs : Nat)
    (hreg : L = 0 ∧ fs + 131072 < 2 ^ 64 ∨ L = fs ∧ fs + 131072 ≤ 2 ^ 64) :
    ∀ (fuel : Nat) (st : Copy), Inv L fs st → Safe fs (copyLoop v L d w fs fuel st) := by
  intro fuel
  induction fuel with
  | zero =>
    intro st hinv
    rw [copyLoop]
    exact ⟨fun s h => (by cases h), hinv.within, hinv.traced, hinv.reported⟩
  | succ n ih =>
    intro st hinv
    have hbody := copyBody_inv v L d w fs st hreg hinv
    cases hb : copyBody v L d w fs st with
    | inl st' =>
      rw [hb] at hbody
      rw [copyLoop_next _ _ _ _ _ _ _ _ hb]
      exact ih st' hbody
    | inr o =>
      rw [hb] at hbody
      rw [copyLoop_stop _ _ _ _ _ _ _ _ hb]
      exact hbody

/-! ## Properties of downloadFile: runs -/

theorem downloadFile_eq (v : Bool) (L : Nat) (d : Display) (file : ZipFile) (w : Handle)
    (files : Files) (fuel : Nat) (rc : Stream) (hopen : file.Open = .ok rc) :
    downloadFile v L d file w files fuel =
      copyLoop v L d w (if L ≠ 0 then L else file.UncompressedSize64) fuel
        ⟨rc, files, 0, if L ≠ 0 then getBufferSize L else defaultBufferSize, [], [], 0⟩ := by
  unfold downloadFile
  rw [hopen]
  by_cases hL : L = 0
  · simp [hL]
  · simp [hL]

/-- More fuel does not change a run of `downloadFile` that has ended. -/
theorem downloadFile_mono (v : Bool) (L : Nat) (d : Display) (file : ZipFile) (w : Handle)
    (files : Files) (n : Nat) (o : Outcome) (h : downloadFile v L d file w files n = o)
    (hne : ∀ s, o ≠ .timeout s) (j : Nat) :
    downloadFile v L d file w files (n + j) = o := by
  cases hopen : file.Open with
  | error err =>
    simp only [downloadFile, hopen] at h ⊢
    exact h
  | ok rc =>
    rw [downloadFile_eq v L d file w files _ rc hopen] at h ⊢
    exact copyLoop_mono v L d w _ n _ o h hne j

/-- Two runs on the same input that both return, return the same. -/
theorem downloadFile_returned_unique (v : Bool) (L : Nat) (d : Display) (file : ZipFile)
    (w : Handle) (files : Files) (n m : Nat) (e e' : Option Error) (s s' : Copy)
    (h : downloadFile v L d file w files n = .returned e s)
    (h' : downloadFile v L d file w files m = .returned e' s') : e = e' ∧ s = s' := by
  have h1 := downloadFile_mono v L d file w files n _ h (fun s hs => by cases hs) m
  have h2 := downloadFile_mono v L d file w files m _ h' (fun s hs => by cases hs) n
  rw [Nat.add_comm] at h2
  rw [h1] at h2
  cases h2
  exact ⟨rfl, rfl⟩

/-- A run of `k` passes that each read and write a whole buffer. -/
theorem copyLoop_full_chunks (v : Bool) (L : Nat) (d : Display) (w : Handle) (fs : Nat)
    (hfs64 : fs < 2 ^ 64) :
    ∀ (k : Nat) (st : Copy), st.buf = 131072 →
    st.downloaded + 131072 * k ≤ fs → 131072 * k ≤ st.rc.data.length →
    (L = 0 ∨ st.downloaded + 131072 * k < L) →
    ∃ st', (∀ n, copyLoop v L d w fs (n + k) st = copyLoop v L d w fs n st') ∧
      st'.downloaded = st.downloaded + 131072 * k ∧ st'.buf = 131072 ∧
      st'.rc.data.length = st.rc.data.length - 131072 * k ∧ st'.rc.fin = st.rc.fin := by
  intro k
  induction k with
  | zero =>
    intro st hbuf _ _ _
    exact ⟨st, fun n => rfl, by omega, hbuf, by omega, rfl⟩
  | succ k ih =>
    intro st hbuf hd hdata hL
    have hb : bufLen fs st = 131072 := by
      rw [bufLen_keep fs st (by omega) hfs64, hbuf]
    have hstep := copyBody_read v L d w fs st (by omega) (by omega)
    rw [hb, writeChunk_eq v L d w fs _ _ (fun _ => by omega)] at hstep
    have htake : (st.rc.data.take 131072).length = 131072 := by
      rw [List.length_take]; omega
    simp only [htake] at hstep
    rw [u64_of_lt _ (by omega), if_neg (by omega)] at hstep
    obtain ⟨st1, hst1, h1d, h1r, h1f, h1b⟩ : ∃ st1 : Copy,
        afterWrite v d w fs
          { st with buf := 131072, rc := { st.rc with data := st.rc.data.drop 131072 } }
          (st.rc.data.take 131072) = st1 ∧
        st1.downloaded = st.downloaded + 131072 ∧
        st1.rc.data = st.rc.data.drop 131072 ∧ st1.rc.fin = st.rc.fin ∧ st1.buf = 131072 := by
      refine ⟨_, rfl, ?_, rfl, rfl, rfl⟩
      show u64 (st.downloaded + (st.rc.data.take 131072).length) = _
      rw [htake, u64_of_lt _ (by omega)]
    rw [hst1] at hstep
    obtain ⟨st2, hrun, h2d, h2b, h2r, h2f⟩ := ih st1 h1b (by omega)
      (by rw [h1r, List.length_drop]; omega) (by omega)
    refine ⟨st2, fun n => ?_, by omega, h2b, ?_, by rw [h2f, h1f]⟩
    · rw [show n + (k + 1) = (n + k) + 1 by omega, copyLoop_next _ _ _ _ _ _ _ _ hstep]
      exact hrun n
    · rw [h2r, h1r, List.length_drop]
      omega

/-- A target within 131072 of `2^64` on a stream of fewer than `2^64` bytes:
the sum `downloaded+defaultBufferSize` wraps to zero, the buffer is not
shortened, and the last read ends in `io.ErrUnexpectedEOF`. -/
theorem copyLoop_wrap (v : Bool) (L : Nat) (d : Display) (w : Handle) (fs : Nat)
    (st : Copy)
    (hd : st.downloaded = 0) (hbuf : st.buf = 131072)
    (hfs : 2 ^ 64 - 131072 < fs) (hfs64 : fs < 2 ^ 64) (hL : L = 0 ∨ L = fs)
    (hlen : 2 ^ 64 - 131072 < st.rc.data.length) (hlen64 : st.rc.data.length < 2 ^ 64)
    (hfin : st.rc.fin = Error.EOF) :
    ∃ fuel st', copyLoop v L d w fs fuel st = .returned (some Error.ErrUnexpectedEOF) st' := by
  obtain ⟨st1, hrun, h1d, h1b, h1r, h1f⟩ :=
    copyLoop_full_chunks v L d w fs hfs64 (2 ^ 47 - 1) st hbuf (by omega) (by omega) (by omega)
  have hb : bufLen fs st1 = 131072 := by
    unfold bufLen
    rw [defaultBufferSize_eq, u64_eq, if_neg (by omega), h1b]
  have hstep := copyBody_short v L d w fs st1 (by omega) (by omega)
  rw [h1f, hfin, if_pos rfl] at hstep
  exact ⟨1 + (2 ^ 47 - 1), _, by rw [hrun 1]; exact copyLoop_stop _ _ _ _ _ _ _ _ hstep⟩

/-- With the limit 1 and a stream that is at its end, every pass writes an
empty chunk and the loop goes on. -/
theorem copyLoop_spins (v : Bool) (d : Display) (w : Handle) : ∀ (fuel : Nat) (st : Copy),
    st.downloaded = 0 → st.rc.data = [] → st.rc.fin = Error.EOF →
    ∃ st', copyLoop v 1 d w 1 fuel st = .timeout st' := by
  intro fuel
  induction fuel with
  | zero =>
    intro st _ _ _
    exact ⟨st, rfl⟩
  | succ n ih =>
    intro st hd hdata hfin
    have hb : bufLen 1 st = 1 := by
      rw [bufLen_shrink 1 st (by omega) (by omega) (by omega)]
      omega
    have hstep := copyBody_eof v 1 d w 1 st (by rw [hdata]; rfl) (by omega) hfin
    rw [writeChunk_eq v 1 d w 1 _ _ (fun _ => by omega)] at hstep
    have hu : u64 (st.downloaded + 0) = 0 := by
      rw [u64_of_lt _ (by omega)]; omega
    rw [if_neg (by
      show ¬ (1 ≠ 0 ∧ u64 (st.downloaded + 0) ≥ 1)
      rw [hu]; omega)] at hstep
    rw [copyLoop_next _ _ _ _ _ _ _ _ hstep]
    exact ih _ hu hdata hfin

/-- Without progress display the display plays no part. -/
theorem writeChunk_quiet (L : Nat) (d d' : Display) (w : Handle) (fs : Nat) (st : Copy)
    (p : List Byte) :
    writeChunk false L d w fs st p = writeChunk false L d' w fs st p := by
  have h : afterWrite false d w fs st p = afterWrite false d' w fs st p := by
    unfold afterWrite
    simp
  rw [writeChunk_eq false L d w fs st p (fun h => (by cases h)),
    writeChunk_eq false L d' w fs st p (fun h => (by cases h)), h]

theorem copyBody_quiet (L : Nat) (d d' : Display) (w : Handle) (fs : Nat) (st : Copy) :
    copyBody false L d w fs st = copyBody false L d' w fs st := by
  unfold copyBody
  simp only [writeChunk_quiet L d d']

theorem copyLoop_quiet (L : Nat) (d d' : Display) (w : Handle) (fs : Nat) :
    ∀ (fuel : Nat) (st : Copy),
    copyLoop false L d w fs fuel st = copyLoop false L d' w fs fuel st := by
  intro fuel
  induction fuel with
  | zero => intro st; rfl
  | succ n ih =>
    intro st
    rw [copyLoop, copyLoop, copyBody_quiet L d d' w fs st]
    cases copyBody false L d' w fs st with
    | inl st' => exact ih st'
    | inr o => rfl

theorem downloadFile_quiet (L : Nat) (d d' : Display) (file : ZipFile) (w : Handle)
    (files : Files) (fuel : Nat) :
    downloadFile false L d file w files fuel = downloadFile false L d' file w files fuel := by
  cases hopen : file.Open with
  | error err => simp only [downloadFile, hopen]
  | ok rc =>
    rw [downloadFile_eq false L d file w files _ rc hopen,
      downloadFile_eq false L d' file w files _ rc hopen]
    exact copyLoop_quiet L d d' w _ fuel _

/-! ## The claims about downloadFile -/

/-- The invariant holds when the loop is entered. -/
theorem inv_init (L U : Nat) (rc : Stream) (files : Files) :
    Inv L (if L ≠ 0 then L else U)
      ⟨rc, files, 0, if L ≠ 0 then getBufferSize L else defaultBufferSize, [], [], 0⟩ := by
  by_cases hL : L = 0
  · subst hL
    exact ⟨fun h => absurd rfl h, Nat.zero_le _, Or.inl rfl, by simp, by simp⟩
  · refine ⟨fun _ => Nat.pos_of_ne_zero hL, Nat.zero_le _, ?_, by simp, by simp⟩
    simp only [ne_eq, hL, not_false_eq_true, if_true]
    unfold getBufferSize
    rw [defaultBufferSize_eq]
    split_ifs with h
    · right; omega
    · left; rfl

/-- The progress line of the small display at 100 per cent of `n` bytes out
of `n`, for `n = 3` and `n = 2`. -/
theorem progressLine_small :
    progressLine smallDisplay 3 3 100 = "\r[==========>] 100%        3 B/3 B       " ∧
    progressLine smallDisplay 2 2 100 = "\r[==========>] 100%        2 B/2 B       " := by
  constructor
  · unfold progressLine
    rw [progressBar_eq]
    decide
  · unfold progressLine
    rw [progressBar_eq]
    decide

/-- The run `-o - -v` on an entry of three bytes: standard output receives
the three bytes, then the progress line, then the newline. -/
theorem run_verbose_stdout :
    downloadFile true 0 smallDisplay ⟨"a.txt", 3, .ok ⟨[1, 2, 3], .EOF⟩⟩ Handle.stdout
        ⟨⟨[], none⟩, ⟨[], none⟩⟩ 2
      = .returned none ⟨⟨[], .EOF⟩,
          ⟨⟨[1, 2, 3] ++ utf8 "\r[==========>] 100%        3 B/3 B       " ++ utf8 "\n", none⟩,
            ⟨[], none⟩⟩, 3, 0, [3], [⟨3, 3, 100⟩], 0⟩ := by
  rw [downloadFile_eq _ _ _ _ _ _ _ _ rfl]
  have hb : bufLen 3 ⟨⟨[1, 2, 3], .EOF⟩, ⟨⟨[], none⟩, ⟨[], none⟩⟩, 0, defaultBufferSize,
      [], [], 0⟩ = 3 := by decide
  have hstep := copyBody_read true 0 smallDisplay Handle.stdout 3
    ⟨⟨[1, 2, 3], .EOF⟩, ⟨⟨[], none⟩, ⟨[], none⟩⟩, 0, defaultBufferSize, [], [], 0⟩
    (by rw [hb]; decide) (by rw [hb]; decide)
  rw [hb, writeChunk_eq _ _ _ _ _ _ _ (fun _ => by decide), if_neg (by decide)] at hstep
  have hstop := copyBody_empty_buf true 0 smallDisplay Handle.stdout 3 _
    (show bufLen 3 (afterWrite true smallDisplay Handle.stdout 3
      ⟨⟨List.drop 3 [1, 2, 3], .EOF⟩, ⟨⟨[], none⟩, ⟨[], none⟩⟩, 0, 3, [], [], 0⟩
      (List.take 3 [1, 2, 3])) = 0 by decide)
  simp only [if_neg (show ¬ ((0 : Nat) ≠ 0) by decide)]
  rw [copyLoop_next _ _ _ _ _ _ _ _ hstep, copyLoop_stop _ _ _ _ _ _ _ _ hstop, finish_eq]
  have h3 : u64 (0 + (List.take 3 ([1, 2, 3] : List Byte)).length) = 3 := by decide
  have hp : intOfU64 (u64 (3 * 100) / 3) = 100 := by decide
  simp only [finishState, afterWrite, if_true, h3, hp, progressLine_small.1]
  decide

/-- The run `-o - -v -b 2` on an entry of three bytes: standard output
receives the first two bytes, then the progress line, then the newline. -/
theorem run_verbose_stdout_limit :
    downloadFile true 2 smallDisplay ⟨"a.txt", 3, .ok ⟨[1, 2, 3], .EOF⟩⟩ Handle.stdout
        ⟨⟨[], none⟩, ⟨[], none⟩⟩ 1
      = .returned none ⟨⟨[3], .EOF⟩,
          ⟨⟨[1, 2] ++ utf8 "\r[==========>] 100%        2 B/2 B       " ++ utf8 "\n", none⟩,
            ⟨[], none⟩⟩, 2, 2, [2], [⟨2, 2, 100⟩], 0⟩ := by
  rw [downloadFile_eq _ _ _ _ _ _ _ _ rfl]
  simp only [if_pos (show (2 : Nat) ≠ 0 by decide)]
  have hb : bufLen 2 ⟨⟨[1, 2, 3], .EOF⟩, ⟨⟨[], none⟩, ⟨[], none⟩⟩, 0, getBufferSize 2,
      [], [], 0⟩ = 2 := by decide
  have hstep := copyBody_read true 2 smallDisplay Handle.stdout 2
    ⟨⟨[1, 2, 3], .EOF⟩, ⟨⟨[], none⟩, ⟨[], none⟩⟩, 0, getBufferSize 2, [], [], 0⟩
    (by rw [hb]; decide) (by rw [hb]; decide)
  rw [hb, writeChunk_eq _ _ _ _ _ _ _ (fun _ => by decide), if_pos (by decide)] at hstep
  rw [copyLoop_stop _ _ _ _ _ _ _ _ hstep, finish_eq]
  have h2 : u64 (0 + (List.take 2 ([1, 2, 3] : List Byte)).length) = 2 := by decide
  have hp : intOfU64 (u64 (2 * 100) / 2) = 100 := by decide
  simp only [finishState, afterWrite, if_true, h2, hp, progressLine_small.2]
  decide

/-- The run on an entry of one byte with a created file that accepts
nothing. -/
theorem run_full_file :
    downloadFile false 0 smallDisplay ⟨"a.txt", 1, .ok ⟨[7], .EOF⟩⟩ Handle.file
        ⟨⟨[], none⟩, ⟨[], some 0⟩⟩ 2
      = .returned none ⟨⟨[], .EOF⟩, ⟨⟨[], none⟩, ⟨[], some 0⟩⟩, 1, 0, [1], [], 1⟩ := by
  decide

/-- The run with the limit 1 on an entry of two bytes with a created file
that accepts nothing. -/
theorem run_full_file_limit :
    downloadFile false 1 smallDisplay ⟨"a.txt", 2, .ok ⟨[7, 8], .EOF⟩⟩ Handle.file
        ⟨⟨[], none⟩, ⟨[], some 0⟩⟩ 1
      = .returned none ⟨⟨[8], .EOF⟩, ⟨⟨[], none⟩, ⟨[], some 0⟩⟩, 1, 1, [1], [], 1⟩ := by
  decide

/-- C1 (amended): for an entry with `uncompressedSize + 131072 < 2^64` whose
decompression stream yields exactly `uncompressedSize` bytes, `downloadFile`
with no byte limit, when the progress display does not go to the writer
(`verbose` is off, or the writer is the created file and not standard
output) and the writer's file accepts every write, returns without error,
and the bytes written to that file are exactly the bytes of the stream, in
order: it holds them after what it held before; the counter ends at
`uncompressedSize`. -/
theorem downloadFile_whole_entry (verbose : Bool) (d : Display) (file : ZipFile) (rc : Stream)
    (writer : Handle) (files : Files)
    (hopen : file.Open = .ok rc) (hsize : rc.data.length = file.UncompressedSize64)
    (hbound : file.UncompressedSize64 + 131072 < 2 ^ 64)
    (hquiet : verbose = false ∨ writer = Handle.file)
    (hroom : (files.get writer).room = none) :
    ∃ fuel st, downloadFile verbose 0 d file writer files fuel = .returned none st ∧
      (st.files.get writer).content = (files.get writer).content ++ rc.data ∧
      st.downloaded = file.UncompressedSize64 := by
  obtain ⟨st, hrun, hw, hd⟩ := copyLoop_completes verbose 0 d writer file.UncompressedSize64
    hquiet (file.UncompressedSize64 / 131072 + 1)
    ⟨rc, files, 0, defaultBufferSize, [], [], 0⟩
    (Or.inl ⟨rfl, hbound⟩) (Nat.zero_le _) (Or.inl rfl)
    (by show file.UncompressedSize64 - 0 ≤ rc.data.length; omega)
    (by show file.UncompressedSize64 - 0 < _; omega)
  have htake : rc.data.take (file.UncompressedSize64 - 0) = rc.data :=
    List.take_of_length_le (by omega)
  refine ⟨file.UncompressedSize64 / 131072 + 1 + 1, st, ?_, ?_, hd⟩
  · rw [downloadFile_eq verbose 0 d file writer files _ rc hopen]
    exact hrun
  · rw [hw]
    show ((files.get writer).write (rc.data.take (file.UncompressedSize64 - 0))).1.content = _
    rw [htake, write_unbounded _ _ hroom]

/-- Witness of C1: an entry of three bytes copied to the created file, in
verbose mode. -/
theorem downloadFile_whole_entry_witness :
    ∃ fuel st, downloadFile true 0 smallDisplay ⟨"a.txt", 3, .ok ⟨[1, 2, 3], .EOF⟩⟩
        Handle.file ⟨⟨[], none⟩, ⟨[], none⟩⟩ fuel = .returned none st ∧
      (st.files.get Handle.file).content
        = ((⟨⟨[], none⟩, ⟨[], none⟩⟩ : Files).get Handle.file).content ++ [1, 2, 3] ∧
      st.downloaded = 3 :=
  downloadFile_whole_entry true smallDisplay ⟨"a.txt", 3, .ok ⟨[1, 2, 3], .EOF⟩⟩
    ⟨[1, 2, 3], .EOF⟩ Handle.file ⟨⟨[], none⟩, ⟨[], none⟩⟩ rfl rfl (by norm_num)
    (Or.inr rfl) rfl

/-- Counterexample to C1 as stated, at three inputs. With `-o - -v` the
writer is standard output, and an entry of three bytes leaves on it the
three bytes followed by the progress line and the newline: no run leaves
exactly the bytes of the stream. For an entry of `2^64 - 1` bytes the sum
`downloaded+defaultBufferSize` wraps to zero after `2^47 - 1` whole buffers,
the buffer keeps its 131072 bytes, 131071 are left, and `downloadFile`
returns `io.ErrUnexpectedEOF`: no run returns without error. And on a file
that accepts nothing the byte of an entry of one byte is not written, though
`downloadFile` returns `nil`. -/
theorem downloadFile_whole_entry_counterexample :
    ((∃ fuel st, downloadFile true 0 smallDisplay ⟨"a.txt", 3, .ok ⟨[1, 2, 3], .EOF⟩⟩
          Handle.stdout ⟨⟨[], none⟩, ⟨[], none⟩⟩ fuel = .returned none st ∧
        (st.files.get Handle.stdout).content
          = [1, 2, 3] ++ utf8 "\r[==========>] 100%        3 B/3 B       " ++ utf8 "\n") ∧
      ¬ ∃ fuel st, downloadFile true 0 smallDisplay ⟨"a.txt", 3, .ok ⟨[1, 2, 3], .EOF⟩⟩
          Handle.stdout ⟨⟨[], none⟩, ⟨[], none⟩⟩ fuel = .returned none st ∧
        (st.files.get Handle.stdout).content = [] ++ [1, 2, 3]) ∧
    ((∃ fuel st, downloadFile false 0 smallDisplay
          ⟨"big", 2 ^ 64 - 1, .ok ⟨List.replicate (2 ^ 64 - 1) 0, .EOF⟩⟩
          Handle.file ⟨⟨[], none⟩, ⟨[], none⟩⟩ fuel = .returned (some .ErrUnexpectedEOF) st) ∧
      ¬ ∃ fuel st, downloadFile false 0 smallDisplay
          ⟨"big", 2 ^ 64 - 1, .ok ⟨List.replicate (2 ^ 64 - 1) 0, .EOF⟩⟩
          Handle.file ⟨⟨[], none⟩, ⟨[], none⟩⟩ fuel = .returned none st) ∧
    (∃ fuel st, downloadFile false 0 smallDisplay ⟨"a.txt", 1, .ok ⟨[7], .EOF⟩⟩
        Handle.file ⟨⟨[], none⟩, ⟨[], some 0⟩⟩ fuel = .returned none st ∧
      (st.files.get Handle.file).content = []) := by
  refine ⟨⟨⟨2, _, run_verbose_stdout, rfl⟩, ?_⟩, ?_, ⟨2, _, run_full_file, rfl⟩⟩
  · rintro ⟨m, s', h', hc⟩
    obtain ⟨-, hs⟩ := downloadFile_returned_unique _ _ _ _ _ _ _ _ _ _ _ _ run_verbose_stdout h'
    subst hs
    revert hc
    decide
  · have hlen : (List.replicate (2 ^ 64 - 1) (0 : Byte)).length = 2 ^ 64 - 1 :=
      List.length_replicate _ _
    have hfail : ∃ fuel st, downloadFile false 0 smallDisplay
        ⟨"big", 2 ^ 64 - 1, .ok ⟨List.replicate (2 ^ 64 - 1) 0, .EOF⟩⟩
        Handle.file ⟨⟨[], none⟩, ⟨[], none⟩⟩ fuel = .returned (some .ErrUnexpectedEOF) st := by
      obtain ⟨fuel, st, h⟩ := copyLoop_wrap false 0 smallDisplay Handle.file (2 ^ 64 - 1)
        ⟨⟨List.replicate (2 ^ 64 - 1) 0, .EOF⟩, ⟨⟨[], none⟩, ⟨[], none⟩⟩, 0, defaultBufferSize,
          [], [], 0⟩
        rfl rfl (by norm_num) (by norm_num) (Or.inl rfl)
        (by rw [hlen]; norm_num) (by rw [hlen]; norm_num) rfl
      exact ⟨fuel, st, by rw [downloadFile_eq false 0 _ _ _ _ _ _ rfl]; exact h⟩
    refine ⟨hfail, ?_⟩
    rintro ⟨m, s', h'⟩
    obtain ⟨n, s, h⟩ := hfail
    have := (downloadFile_returned_unique _ _ _ _ _ _ _ _ _ _ _ _ h h').1
    cases this

/-- C2 (amended): for an entry whose decompression stream yields
`uncompressedSize` bytes and a byte limit `L` with `0 < L < uncompressedSize`
and `L + 131072 ≤ 2^64`, `downloadFile`, when the progress display does not
go to the writer (`verbose` is off, or the writer is the created file and
not standard output) and the writer's file accepts every write, returns
without error, and the bytes written to that file are exactly the first `L`
bytes of the stream, in order: it holds them after what it held before; the
counter ends at `L` and at no pass exceeds `L`. -/
theorem downloadFile_limit (verbose : Bool) (L : Nat) (d : Display) (file : ZipFile)
    (rc : Stream) (writer : Handle) (files : Files) (hopen : file.Open = .ok rc)
    (hsize : rc.data.length = file.UncompressedSize64)
    (hL0 : 0 < L) (hLU : L < file.UncompressedSize64) (hbound : L + 131072 ≤ 2 ^ 64)
    (hquiet : verbose = false ∨ writer = Handle.file)
    (hroom : (files.get writer).room = none) :
    ∃ fuel st, downloadFile verbose L d file writer files fuel = .returned none st ∧
      (st.files.get writer).content = (files.get writer).content ++ rc.data.take L ∧
      st.downloaded = L ∧ ∀ x ∈ st.trace, x ≤ L := by
  have hLne : L ≠ 0 := by omega
  have hbuf : getBufferSize L = 131072 ∨ L < 0 + 131072 := by
    unfold getBufferSize
    rw [defaultBufferSize_eq]
    split_ifs with h
    · right; omega
    · left; rfl
  obtain ⟨st, hrun, hw, hd⟩ := copyLoop_completes verbose L d writer L hquiet
    (L / 131072 + 1) ⟨rc, files, 0, getBufferSize L, [], [], 0⟩
    (Or.inr ⟨rfl, hL0, hbound⟩) (Nat.zero_le _) hbuf
    (by show L - 0 ≤ rc.data.length; omega) (by show L - 0 < _; omega)
  have hsafe := copyLoop_safe verbose L d writer
    (if L ≠ 0 then L else file.UncompressedSize64)
    (Or.inr ⟨by rw [if_pos hLne], by rw [if_pos hLne]; exact hbound⟩)
    (L / 131072 + 1 + 1) _ (inv_init L file.UncompressedSize64 rc files)
  simp only [if_pos hLne] at hsafe
  rw [hrun] at hsafe
  refine ⟨L / 131072 + 1 + 1, st, ?_, ?_, hd, hsafe.traced⟩
  · rw [downloadFile_eq verbose L d file writer files _ rc hopen]
    simp only [if_pos hLne]
    exact hrun
  · rw [hw]
    show ((files.get writer).write (rc.data.take (L - 0))).1.content = _
    rw [Nat.sub_zero, write_unbounded _ _ hroom]

/-- Witness of C2: the first two bytes of an entry of three bytes copied to
the created file, in verbose mode. -/
theorem downloadFile_limit_witness :
    ∃ fuel st, downloadFile true 2 smallDisplay ⟨"a.txt", 3, .ok ⟨[1, 2, 3], .EOF⟩⟩
        Handle.file ⟨⟨[], none⟩, ⟨[], none⟩⟩ fuel = .returned none st ∧
      (st.files.get Handle.file).content
        = ((⟨⟨[], none⟩, ⟨[], none⟩⟩ : Files).get Handle.file).content
          ++ List.take 2 [1, 2, 3] ∧
      st.downloaded = 2 ∧ ∀ x ∈ st.trace, x ≤ 2 :=
  downloadFile_limit true 2 smallDisplay ⟨"a.txt", 3, .ok ⟨[1, 2, 3], .EOF⟩⟩
    ⟨[1, 2, 3], .EOF⟩ Handle.file ⟨⟨[], none⟩, ⟨[], none⟩⟩ rfl rfl (by norm_num) (by norm_num)
    (by norm_num) (Or.inr rfl) rfl

/-- Counterexample to C2 as stated, at three inputs. With `-o - -v -b 2` the
writer is standard output, and an entry of three bytes leaves on it its
first two bytes followed by the progress line and the newline: no run leaves
exactly the first two bytes. For the limit `2^64 - 2` on an entry of
`2^64 - 1` bytes the sum `downloaded+defaultBufferSize` wraps to zero after
`2^47 - 1` whole buffers, the buffer is not clamped, the stream has 131071
bytes left for a buffer of 131072, and `downloadFile` returns
`io.ErrUnexpectedEOF`: no run returns without error. And on a file that
accepts nothing the first byte of an entry of two bytes is not written under
the limit 1, though `downloadFile` returns `nil`. -/
theorem downloadFile_limit_counterexample :
    ((∃ fuel st, downloadFile true 2 smallDisplay ⟨"a.txt", 3, .ok ⟨[1, 2, 3], .EOF⟩⟩
          Handle.stdout ⟨⟨[], none⟩, ⟨[], none⟩⟩ fuel = .returned none st ∧
        (st.files.get Handle.stdout).content
          = [1, 2] ++ utf8 "\r[==========>] 100%        2 B/2 B       " ++ utf8 "\n") ∧
      ¬ ∃ fuel st, downloadFile true 2 smallDisplay ⟨"a.txt", 3, .ok ⟨[1, 2, 3], .EOF⟩⟩
          Handle.stdout ⟨⟨[], none⟩, ⟨[], none⟩⟩ fuel = .returned none st ∧
        (st.files.get Handle.stdout).content = [] ++ List.take 2 [1, 2, 3]) ∧
    ((∃ fuel st, downloadFile false (2 ^ 64 - 2) smallDisplay
          ⟨"big", 2 ^ 64 - 1, .ok ⟨List.replicate (2 ^ 64 - 1) 0, .EOF⟩⟩
          Handle.file ⟨⟨[], none⟩, ⟨[], none⟩⟩ fuel = .returned (some .ErrUnexpectedEOF) st) ∧
      ¬ ∃ fuel st, downloadFile false (2 ^ 64 - 2) smallDisplay
          ⟨"big", 2 ^ 64 - 1, .ok ⟨List.replicate (2 ^ 64 - 1) 0, .EOF⟩⟩
          Handle.file ⟨⟨[], none⟩, ⟨[], none⟩⟩ fuel = .returned none st) ∧
    (∃ fuel st, downloadFile false 1 smallDisplay ⟨"a.txt", 2, .ok ⟨[7, 8], .EOF⟩⟩
        Handle.file ⟨⟨[], none⟩, ⟨[], some 0⟩⟩ fuel = .returned none st ∧
      (st.files.get Handle.file).content = []) := by
  refine ⟨⟨⟨1, _, run_verbose_stdout_limit, rfl⟩, ?_⟩, ?_, ⟨1, _, run_full_file_limit, rfl⟩⟩
  · rintro ⟨m, s', h', hc⟩
    obtain ⟨-, hs⟩ :=
      downloadFile_returned_unique _ _ _ _ _ _ _ _ _ _ _ _ run_verbose_stdout_limit h'
    subst hs
    revert hc
    decide
  · have hlen : (List.replicate (2 ^ 64 - 1) (0 : Byte)).length = 2 ^ 64 - 1 :=
      List.length_replicate _ _
    have hne : (2 ^ 64 - 2 : Nat) ≠ 0 := by norm_num
    have hbuf : getBufferSize (2 ^ 64 - 2) = 131072 := by
      unfold getBufferSize
      rw [defaultBufferSize_eq, if_neg (by norm_num)]
    have hfail : ∃ fuel st, downloadFile false (2 ^ 64 - 2) smallDisplay
        ⟨"big", 2 ^ 64 - 1, .ok ⟨List.replicate (2 ^ 64 - 1) 0, .EOF⟩⟩
        Handle.file ⟨⟨[], none⟩, ⟨[], none⟩⟩ fuel = .returned (some .ErrUnexpectedEOF) st := by
      obtain ⟨fuel, st, h⟩ := copyLoop_wrap false (2 ^ 64 - 2) smallDisplay Handle.file
        (2 ^ 64 - 2)
        ⟨⟨List.replicate (2 ^ 64 - 1) 0, .EOF⟩, ⟨⟨[], none⟩, ⟨[], none⟩⟩, 0,
          getBufferSize (2 ^ 64 - 2), [], [], 0⟩
        rfl hbuf (by norm_num) (by norm_num) (Or.inr rfl)
        (by rw [hlen]; norm_num) (by rw [hlen]; norm_num) rfl
      refine ⟨fuel, st, ?_⟩
      rw [downloadFile_eq false (2 ^ 64 - 2) _ _ _ _ _ _ rfl]
      simp only [if_pos hne]
      exact h
    refine ⟨hfail, ?_⟩
    rintro ⟨m, s', h'⟩
    obtain ⟨n, s, h⟩ := hfail
    have := (downloadFile_returned_unique _ _ _ _ _ _ _ _ _ _ _ _ h h').1
    cases this

/-- C10: when the target (the limit if set, else `uncompressedSize`) satisfies
`target + 131072 < 2^64`, then for every stream, every writer and any number
of passes, `downloadFile` has not panicked (so no division by zero took
place), and at each evaluation of `downloaded*100/filesize` the divisor was
not zero, `downloaded ≤ filesize` held and the percentage handed to
`progressBar` lies between 0 and 100; and for an empty entry with no limit no
percentage is evaluated at all. -/
theorem downloadFile_progress_safe (verbose : Bool) (limitBytes : Nat) (d : Display)
    (file : ZipFile) (writer : Handle) (files : Files) (fuel : Nat)
    (hbound : (if limitBytes ≠ 0 then limitBytes else file.UncompressedSize64) + 131072
      < 2 ^ 64) :
    (∀ s, downloadFile verbose limitBytes d file writer files fuel ≠ .panicked s) ∧
    (∀ e ∈ (downloadFile verbose limitBytes d file writer files fuel).state.progress,
      e.filesize ≠ 0 ∧ e.downloaded ≤ e.filesize ∧ 0 ≤ e.percent ∧ e.percent ≤ 100) ∧
    (limitBytes = 0 → file.UncompressedSize64 = 0 →
      (downloadFile verbose limitBytes d file writer files fuel).state.progress = []) := by
  cases hopen : file.Open with
  | error err =>
    have hrun : downloadFile verbose limitBytes d file writer files fuel
        = .returned (some err) ⟨⟨[], err⟩, files, 0, 0, [], [], 0⟩ := by
      simp only [downloadFile, hopen]
    rw [hrun]
    exact ⟨fun s h => (by cases h), fun e he => (by cases he), fun _ _ => rfl⟩
  | ok rc =>
    rw [downloadFile_eq verbose limitBytes d file writer files fuel rc hopen]
    have hreg : limitBytes = 0 ∧
          (if limitBytes ≠ 0 then limitBytes else file.UncompressedSize64) + 131072 < 2 ^ 64 ∨
        limitBytes = (if limitBytes ≠ 0 then limitBytes else file.UncompressedSize64) ∧
          (if limitBytes ≠ 0 then limitBytes else file.UncompressedSize64) + 131072
            ≤ 2 ^ 64 := by
      by_cases hL : limitBytes = 0
      · exact Or.inl ⟨hL, hbound⟩
      · exact Or.inr ⟨by rw [if_pos hL], by omega⟩
    have hsafe := copyLoop_safe verbose limitBytes d writer _ hreg fuel _
      (inv_init limitBytes file.UncompressedSize64 rc files)
    refine ⟨hsafe.noPanic, hsafe.reported, ?_⟩
    intro hL hU
    subst hL
    simp only [ne_eq, not_true_eq_false, if_false, hU]
    cases fuel with
    | zero => rfl
    | succ n =>
      have hb : bufLen 0 ⟨rc, files, 0, defaultBufferSize, [], [], 0⟩ = 0 := by
        rw [bufLen_shrink 0 _ (Nat.le_refl _) (by show 0 < 0 + 131072; omega)
          (by show 0 + 131072 < 2 ^ 64; omega)]
        rfl
      rw [copyLoop_stop _ _ _ _ _ _ _ _ (copyBody_empty_buf verbose 0 d writer 0 _ hb),
        finish_eq]
      show (finishState verbose _).progress = []
      rw [finishState_progress]

/-- Witness of C10: an entry of three bytes copied in verbose mode. -/
theorem downloadFile_progress_safe_witness :
    (∀ s, downloadFile true 0 smallDisplay ⟨"a.txt", 3, .ok ⟨[1, 2, 3], .EOF⟩⟩ Handle.file
      ⟨⟨[], none⟩, ⟨[], none⟩⟩ 5 ≠ .panicked s) ∧
    (∀ e ∈ (downloadFile true 0 smallDisplay ⟨"a.txt", 3, .ok ⟨[1, 2, 3], .EOF⟩⟩ Handle.file
        ⟨⟨[], none⟩, ⟨[], none⟩⟩ 5).state.progress,
      e.filesize ≠ 0 ∧ e.downloaded ≤ e.filesize ∧ 0 ≤ e.percent ∧ e.percent ≤ 100) ∧
    ((0 : Nat) = 0 → (3 : Nat) = 0 →
      (downloadFile true 0 smallDisplay ⟨"a.txt", 3, .ok ⟨[1, 2, 3], .EOF⟩⟩ Handle.file
        ⟨⟨[], none⟩, ⟨[], none⟩⟩ 5).state.progress = []) :=
  downloadFile_progress_safe true 0 smallDisplay ⟨"a.txt", 3, .ok ⟨[1, 2, 3], .EOF⟩⟩
    Handle.file ⟨⟨[], none⟩, ⟨[], none⟩⟩ 5 (by norm_num)

/-- C3, evaluated where it fails: the limit 1000 on the entry `a.txt` of 12
bytes. The buffer is made for 1000 bytes, the stream ends after 12, and
`downloadFile` returns `io.ErrUnexpectedEOF` with nothing written. -/
theorem downloadFile_limit_beyond_entry (d : Display) (fuel : Nat) :
    downloadFile false 1000 d
        ⟨"a.txt", 12, .ok ⟨[0, 1, 2, 3, 4, 5, 6, 7, 8, 9, 10, 11], .EOF⟩⟩ Handle.file
        ⟨⟨[], none⟩, ⟨[], none⟩⟩ (1 + fuel)
      = .returned (some .ErrUnexpectedEOF)
          ⟨⟨[], .EOF⟩, ⟨⟨[], none⟩, ⟨[], none⟩⟩, 0, 1000, [], [], 0⟩ := by
  rw [downloadFile_quiet 1000 d smallDisplay]
  exact downloadFile_mono false 1000 _ _ _ _ 1 _ (by decide) (fun s h => (by cases h)) fuel

/-- C4, evaluated where it fails: the limit 1 on an empty entry. Every read
returns zero bytes and `io.EOF`, the branch that writes is taken, the limit
is not reached, and the loop never ends: whatever the number of passes
allowed, the run is still in the loop. -/
theorem downloadFile_limit_on_empty_entry (verbose : Bool) (d : Display) (writer : Handle)
    (fuel : Nat) :
    ∃ st, downloadFile verbose 1 d ⟨"empty", 0, .ok ⟨[], .EOF⟩⟩ writer
      ⟨⟨[], none⟩, ⟨[], none⟩⟩ fuel = .timeout st := by
  rw [downloadFile_eq verbose 1 _ _ _ _ _ _ rfl]
  exact copyLoop_spins verbose d writer fuel _ rfl rfl rfl

/-- C6, evaluated where it fails: an entry of one byte copied to a file that
accepts nothing. The `Write` of the chunk returns an error, and
`downloadFile` returns `nil`. -/
theorem downloadFile_write_error_dropped (d : Display) (fuel : Nat) :
    (Sink.write ⟨[], some 0⟩ [7]).2.2 = some (.other "no space left on device") ∧
    downloadFile false 0 d ⟨"a.txt", 1, .ok ⟨[7], .EOF⟩⟩ Handle.file
        ⟨⟨[], none⟩, ⟨[], some 0⟩⟩ (2 + fuel)
      = .returned none ⟨⟨[], .EOF⟩, ⟨⟨[], none⟩, ⟨[], some 0⟩⟩, 1, 0, [1], [], 1⟩ := by
  refine ⟨by decide, ?_⟩
  rw [downloadFile_quiet 0 d smallDisplay]
  exact downloadFile_mono false 0 _ _ _ _ 2 _ run_full_file (fun s h => (by cases h)) fuel

end Rover
